import Mathlib

/-!
# Verification of the gridium terrain / movement core

A shallow embedding of the procedural-terrain and character-movement logic of
the gridium repository (`src/game/src/store/gameStore.ts`,
`src/game/src/components/TileGrid.tsx`, `src/game/src/terrain.ts`,
`src/game/src/components/Trees.tsx`), together with proofs of the spec's
claims about it.

Modelling conventions:
* a grid cell `(row, col)` is a pair of integers (`Cell`); the JS string keys
  `"r,c"` are modelled by structural pair equality, which is exactly what the
  string keys implement;
* JS numbers are modelled by `ℤ` where the code only ever holds integers and
  by `ℚ` where fractional values occur (elevations, random draws);
* each call of `Math.random()` consumes the next element of an explicit list
  of rational draws (`draw`); a genuine execution corresponds to a list of
  values in `[0, 1)`, and an exhausted list yields the draw `0`, itself a
  value `Math.random()` can produce.  Theorems quantified over all draw lists
  therefore cover every execution of the JS code;
* `Math.floor` is `Int.floor` on `ℚ`;
* JS `Set` objects are modelled as lists with membership, in insertion order.
-/

namespace Gridium

/-- A tile coordinate `(row, col)`. -/
abbrev Cell := ℤ × ℤ

/-- `manhattanDist` from `TileGrid.tsx`: `|r1 - r2| + |c1 - c2|`. -/
def manhattanDist (a b : Cell) : ℤ :=
  |a.1 - b.1| + |a.2 - b.2|

/-- `getAdjacent` from `TileGrid.tsx`: the in-bounds orthogonal neighbours of
`(row, col)`, pushed in the order up, down, left, right. -/
def getAdjacent (row col rows cols : ℤ) : List Cell :=
  (if 0 < row then [(row - 1, col)] else []) ++
  (if row < rows - 1 then [(row + 1, col)] else []) ++
  (if 0 < col then [(row, col - 1)] else []) ++
  (if col < cols - 1 then [(row, col + 1)] else [])

/-- The `GameState` union type of `gameStore.ts`. -/
inductive GameState where
  | playing
  | paused
  | menu
  | gameover
deriving DecidableEq, Repr

/-- `TerrainData` from `terrain.ts`: the eight classification sets.  Each JS
`Set<string>` of `"r,c"` keys is modelled as a list of cells. -/
structure TerrainData where
  blackSet : List Cell
  graySet : List Cell
  darkGreenInner : List Cell
  darkGreenOuter : List Cell
  riverSet : List Cell
  riverAdjacentSet : List Cell
  lakeSet : List Cell
  lakeAdjacentSet : List Cell
deriving DecidableEq

/-- `STEP_HEIGHT = 0.3` from `terrain.ts`. -/
def STEP_HEIGHT : ℚ := 3 / 10

/-- `getElevationFromTerrain` from `terrain.ts`: the first-match elevation
lookup over the classification sets, with `-STEP_HEIGHT` for a `null`
terrain and for a cell in no set. -/
def getElevationFromTerrain (terrain : Option TerrainData) (row col : ℤ) : ℚ :=
  match terrain with
  | none => -STEP_HEIGHT
  | some t =>
    let key : Cell := (row, col)
    if key ∈ t.blackSet then 2 * STEP_HEIGHT
    else if key ∈ t.graySet then STEP_HEIGHT
    else if key ∈ t.darkGreenInner then STEP_HEIGHT / 2
    else if key ∈ t.riverSet then -2 * STEP_HEIGHT
    else if key ∈ t.lakeSet then -2 * STEP_HEIGHT
    else if key ∈ t.riverAdjacentSet then -2 * STEP_HEIGHT
    else if key ∈ t.lakeAdjacentSet then -2 * STEP_HEIGHT
    else if key ∈ t.darkGreenOuter then 0
    else -STEP_HEIGHT

/-- The state held by the zustand store in `gameStore.ts`. -/
structure GameStore where
  score : ℤ
  gameState : GameState
  characterRow : ℤ
  characterCol : ℤ
  terrain : Option TerrainData
  treePositions : List Cell
deriving DecidableEq

/-- `moveCharacter` from `gameStore.ts`.  The obstacle check runs on the
unclamped target `(row + dRow, col + dCol)`; on a hit the whole state is
returned unchanged, otherwise only the two position fields are replaced,
each axis clamped to the hardcoded `28 × 20` grid (`max 0 (min 27 ·)`,
`max 0 (min 19 ·)`). -/
def moveCharacter (dRow dCol : ℤ) (state : GameStore) : GameStore :=
  let newRow := state.characterRow + dRow
  let newCol := state.characterCol + dCol
  let treeKey : Cell := (newRow, newCol)
  if treeKey ∈ state.treePositions then state
  else
    { state with
      characterRow := max 0 (min 27 newRow),
      characterCol := max 0 (min 19 newCol) }

/-- Modelled from the spec (§4.7), for refinement comparison with
`moveCharacter`: `move(position, delta, bounds, obstacles)` computes the
candidate, rejects it wholesale when it is an obstacle, and otherwise clamps
each axis independently into `[0, dimension - 1]`. -/
def moveSpec (pos delta : Cell) (rowsBound colsBound : ℤ)
    (obstacles : List Cell) : Cell :=
  let candidate : Cell := (pos.1 + delta.1, pos.2 + delta.2)
  if candidate ∈ obstacles then pos
  else (max 0 (min (rowsBound - 1) candidate.1),
        max 0 (min (colsBound - 1) candidate.2))

/-- The nine terrain bands, in the vocabulary of the spec (§3). -/
inductive Band where
  | peak
  | slopeNear
  | slopeInner
  | riverBand
  | lakeBand
  | riverAdj
  | lakeAdj
  | slopeOuter
  | baseLand
deriving DecidableEq, Repr

/-- Modelled from the spec (§3): the elevation of each band in units of one
step. -/
def bandSteps : Band → ℚ
  | .peak => 2
  | .slopeNear => 1
  | .slopeInner => 1 / 2
  | .riverBand => -2
  | .lakeBand => -2
  | .riverAdj => -2
  | .lakeAdj => -2
  | .slopeOuter => 0
  | .baseLand => -1

/-- The classification set of a band inside a terrain bundle. -/
def bandMembers (t : TerrainData) : Band → List Cell
  | .peak => t.blackSet
  | .slopeNear => t.graySet
  | .slopeInner => t.darkGreenInner
  | .riverBand => t.riverSet
  | .lakeBand => t.lakeSet
  | .riverAdj => t.riverAdjacentSet
  | .lakeAdj => t.lakeAdjacentSet
  | .slopeOuter => t.darkGreenOuter
  | .baseLand => []

/-- Modelled from the spec (§3): the fixed priority order
peak > slope-near > slope-inner > river > lake > river-adjacent >
lake-adjacent > slope-outer. -/
def priorityOrder : List Band :=
  [.peak, .slopeNear, .slopeInner, .riverBand, .lakeBand,
   .riverAdj, .lakeAdj, .slopeOuter]

/-- Modelled from the spec (§3): the first band of the priority order whose
set holds the cell, defaulting to base land. -/
def firstBand (t : TerrainData) (cell : Cell) : Band :=
  (priorityOrder.find? (fun b => decide (cell ∈ bandMembers t b))).getD .baseLand

/-- Modelled from the spec (§4.5): elevation is the step value of the first
matching band, in units of `STEP_HEIGHT`. -/
def elevationSpec (t : TerrainData) (cell : Cell) : ℚ :=
  STEP_HEIGHT * bandSteps (firstBand t cell)

/-- A fixture: character at `(27, 4)` beside a tree at `(27, 5)`, on the
bottom row of the 28-row grid. -/
def cornerStore : GameStore :=
  { score := 0, gameState := .menu, characterRow := 27, characterCol := 4,
    terrain := none, treePositions := [(27, 5)] }

/-- A fixture: character at `(0, 0)` on an obstacle-free grid. -/
def originStore : GameStore :=
  { score := 0, gameState := .menu, characterRow := 0, characterCol := 0,
    terrain := none, treePositions := [] }

/-- A fixture: character at `(12, 8)` (the start position) with a tree at
`(13, 9)`, so that the diagonal move `(1, 1)` is blocked. -/
def blockedStore : GameStore :=
  { score := 7, gameState := .playing, characterRow := 12, characterCol := 8,
    terrain := none, treePositions := [(13, 9)] }

/-- A fixture terrain in which `(1, 1)` lies both in the peak-adjacent set
`graySet` and in the water-adjacent set `riverAdjacentSet`. -/
def overlapTerrain : TerrainData :=
  { blackSet := [], graySet := [(1, 1)], darkGreenInner := [],
    darkGreenOuter := [], riverSet := [(0, 1)], riverAdjacentSet := [(1, 1)],
    lakeSet := [], lakeAdjacentSet := [] }

/-- One call of `Math.random()`: consume the head of the draw list.  An
exhausted list yields `0`, a value `Math.random()` can itself return, so
every theorem quantified over all draw lists covers every execution. -/
def draw : List ℚ → ℚ × List ℚ
  | [] => (0, [])
  | d :: ds => (d, ds)

/-- A draw is valid when it lies in `[0, 1)`, the range of
`Math.random()`. -/
def validQ (d : ℚ) : Prop := 0 ≤ d ∧ d < 1

/-- A draw list is valid when all its entries are. -/
def validDraws (ds : List ℚ) : Prop := ∀ d ∈ ds, validQ d

/-- The model of `Math.floor(u * k)` for a draw `u` and an integer-valued
number `k`, written on the rational's numerator and denominator (with the
floor-style integer division of `ℤ`) so that it evaluates by kernel
reduction; `jsFloorMul_eq_floor` identifies it with `⌊u * k⌋`. -/
def jsFloorMul (d : ℚ) (k : ℤ) : ℤ := d.num * k / (d.den : ℤ)

/-- The model of the literal `0.5`. -/
def half : ℚ := mkRat 1 2

/-- The `while` loop of `pickRandomLakeTiles` in `TileGrid.tsx`: pop a
uniformly random frontier cell, skip it when already in the lake or on the
river, otherwise accept it and enqueue its not-yet-seen neighbours; stop
when the target size is reached or the frontier is exhausted.  The JS sets
`inLake` and `riverSet` mirror the `lakeTiles` list and the river list, so
membership in those lists models `has`.  `fuel` bounds the number of loop
iterations; each iteration removes one frontier entry and an accepted entry
enqueues at most four new ones, so the loop of the source always terminates
and any fuel at least `5 * targetSize + initial frontier size` computes its
exact result. -/
def lakeLoop (rows cols : ℤ) (riverSet : List Cell) (targetSize : ℤ) :
    ℕ → List Cell → List Cell → List ℚ → List Cell
  | 0, lakeTiles, _, _ => lakeTiles
  | fuel + 1, lakeTiles, frontier, ds =>
    if targetSize ≤ (lakeTiles.length : ℤ) ∨ frontier = [] then lakeTiles
    else
      let p := draw ds
      let idx := (jsFloorMul p.1 frontier.length).toNat
      let cell := frontier.getD idx (0, 0)
      let frontier1 := frontier.eraseIdx idx
      if cell ∈ lakeTiles ∨ cell ∈ riverSet then
        lakeLoop rows cols riverSet targetSize fuel lakeTiles frontier1 p.2
      else
        let lake1 := lakeTiles ++ [cell]
        let frontier2 := (getAdjacent cell.1 cell.2 rows cols).foldl
          (fun acc nb => if nb ∈ lake1 ∨ nb ∈ acc then acc else acc ++ [nb])
          frontier1
        lakeLoop rows cols riverSet targetSize fuel lake1 frontier2 p.2

/-- `pickRandomLakeTiles` from `TileGrid.tsx`: a random target size in
`[10, 15]`, a random interior seed accepted unconditionally, then the
frontier-growth loop. -/
def pickRandomLakeTiles (rows cols : ℤ) (riverTiles : List Cell)
    (ds : List ℚ) : List Cell :=
  let p0 := draw ds
  let targetSize : ℤ := 10 + jsFloorMul p0.1 6
  let p1 := draw p0.2
  let centerR := 2 + jsFloorMul p1.1 (rows - 4)
  let p2 := draw p1.2
  let centerC := 2 + jsFloorMul p2.1 (cols - 4)
  lakeLoop rows cols riverTiles targetSize (5 * targetSize.toNat + 24)
    [(centerR, centerC)] (getAdjacent centerR centerC rows cols) p2.2

/-- `MIN_GAP = 8` from `TileGrid.tsx`. -/
def MIN_GAP : ℤ := 8

/-- `RIVER_MOUNTAIN_GAP = 5` from `TileGrid.tsx`. -/
def RIVER_MOUNTAIN_GAP : ℤ := 5

/-- The inner `for` loop of `pickRandomBlackTiles`: absorb up to
`clusterSize - 1` cells picked uniformly from the shrinking adjacency
list. -/
def clusterPickLoop : ℕ → List Cell → List Cell → List ℚ → List Cell × List ℚ
  | 0, cluster, _, ds => (cluster, ds)
  | n + 1, cluster, adj, ds =>
    if adj = [] then (cluster, ds)
    else
      let p := draw ds
      let idx := (jsFloorMul p.1 adj.length).toNat
      let cellP := adj.getD idx (0, 0)
      clusterPickLoop n (cluster ++ [cellP]) (adj.eraseIdx idx) p.2

/-- The `while` loop of `pickRandomBlackTiles` in `TileGrid.tsx`, kept at
cluster granularity: the source pushes each accepted cluster's cells
consecutively into one flat array, which is the `join` of this list
(`pickRandomBlackTiles` below).  `fuel` models the remaining
`maxAttempts - attempts` budget exactly: the source increments `attempts`
once per iteration and stops at `maxAttempts`. -/
def blackLoop (rows cols : ℤ) (riverTiles lakeTiles : List Cell)
    (numClusters : ℕ) :
    ℕ → List (List Cell) → ℕ → List ℚ → List (List Cell)
  | 0, clusters, _, _ => clusters
  | fuel + 1, clusters, added, ds =>
    if added < numClusters ∧ clusters.flatten.length < 16 then
      let p0 := draw ds
      let remaining : ℤ := 16 - clusters.flatten.length
      let clusterSize : ℤ := min (2 + jsFloorMul p0.1 3) remaining
      let p1 := draw p0.2
      let r := jsFloorMul p1.1 rows
      let p2 := draw p1.2
      let c := jsFloorMul p2.1 cols
      let pick := clusterPickLoop (clusterSize - 1).toNat [(r, c)]
        (getAdjacent r c rows cols) p2.2
      let cluster := pick.1
      let tooCloseToOther := clusters.flatten.any fun t =>
        cluster.any fun ct => decide (manhattanDist t ct ≤ MIN_GAP)
      let overlapsRiver := cluster.any fun ct =>
        riverTiles.any fun rt => decide (ct = rt)
      let overlapsLake := cluster.any fun ct =>
        lakeTiles.any fun lt => decide (ct = lt)
      let tooCloseToRiver := cluster.any fun ct =>
        riverTiles.any fun rt =>
          decide (manhattanDist ct rt < RIVER_MOUNTAIN_GAP)
      let tooCloseToLake := cluster.any fun ct =>
        lakeTiles.any fun lt =>
          decide (manhattanDist ct lt < RIVER_MOUNTAIN_GAP)
      if tooCloseToOther || overlapsRiver || overlapsLake ||
          tooCloseToRiver || tooCloseToLake then
        blackLoop rows cols riverTiles lakeTiles numClusters fuel
          clusters added pick.2
      else
        blackLoop rows cols riverTiles lakeTiles numClusters fuel
          (clusters ++ [cluster]) (added + 1) pick.2
    else clusters

/-- `pickRandomBlackTiles` from `TileGrid.tsx` at cluster granularity:
5–6 clusters attempted within an attempt budget of `numClusters * 100`. -/
def pickRandomBlackClusters (rows cols : ℤ)
    (riverTiles lakeTiles : List Cell) (ds : List ℚ) : List (List Cell) :=
  let p0 := draw ds
  let numClusters := (5 + jsFloorMul p0.1 2).toNat
  blackLoop rows cols riverTiles lakeTiles numClusters (numClusters * 100)
    [] 0 p0.2

/-- The flat cell list returned by `pickRandomBlackTiles` in the source:
the accepted clusters' cells in acceptance order. -/
def pickRandomBlackTiles (rows cols : ℤ)
    (riverTiles lakeTiles : List Cell) (ds : List ℚ) : List Cell :=
  (pickRandomBlackClusters rows cols riverTiles lakeTiles ds).flatten

/-- The invariant maintained by the mountain generator: accepted clusters
are pairwise more than `MIN_GAP` apart, all their cells are at least
`RIVER_MOUNTAIN_GAP` from every water cell, and at most 16 cells exist in
total. -/
def goodClusters (riverTiles lakeTiles : List Cell)
    (clusters : List (List Cell)) : Prop :=
  List.Pairwise
    (fun C1 C2 => ∀ a ∈ C1, ∀ b ∈ C2, MIN_GAP < manhattanDist a b)
    clusters ∧
  (∀ p ∈ clusters.flatten, ∀ w ∈ riverTiles ++ lakeTiles,
    RIVER_MOUNTAIN_GAP ≤ manhattanDist p w) ∧
  clusters.flatten.length ≤ 16

/-- A draw list steering the mountain generator to five far-apart clusters
on a `30 × 30` grid with water at `(15, 15)`: seeds `(2,2)`, `(2,27)`,
`(27,2)`, `(27,27)`, `(15,2)`, each absorbing its upper neighbour. -/
def mountainDraws : List ℚ :=
  [0,
   0, mkRat 2 30, mkRat 2 30, 0,
   0, mkRat 2 30, mkRat 27 30, 0,
   0, mkRat 27 30, mkRat 2 30, 0,
   0, mkRat 27 30, mkRat 27 30, 0,
   0, mkRat 15 30, mkRat 2 30, 0]

/-- `n` consecutive integers starting at `a`. -/
def intRangeAux (a : ℤ) : ℕ → List ℤ
  | 0 => []
  | n + 1 => a :: intRangeAux (a + 1) n

/-- The integers from `a` to `b` inclusive, in increasing order. -/
def intRange (a b : ℤ) : List ℤ := intRangeAux a (b - a + 1).toNat

/-- `addSegmentTiles` from `TileGrid.tsx`: the cells pushed for one
straight segment between two waypoints — when the rows agree, the cells of
that row from the smaller to the larger column; otherwise the cells of the
FIRST waypoint's column from the smaller to the larger row. -/
def segmentTiles (w1 w2 : Cell) : List Cell :=
  if w1.1 = w2.1 then
    (intRange (min w1.2 w2.2) (max w1.2 w2.2)).map (fun c => (w1.1, c))
  else
    (intRange (min w1.1 w2.1) (max w1.1 w2.1)).map (fun r => (r, w1.2))

/-- The `for` loop of `pickRandomRiverTiles` concatenating
`addSegmentTiles` over consecutive waypoints. -/
def segsOfWaypoints : Cell → List Cell → List Cell
  | _, [] => []
  | w, w2 :: rest => segmentTiles w w2 ++ segsOfWaypoints w2 rest

/-- The `used`-set filter of `pickRandomRiverTiles`: keep the first
occurrence of every cell, in order. -/
def dedupFirst (seen : List Cell) : List Cell → List Cell
  | [] => []
  | t :: ts =>
    if t ∈ seen then dedupFirst seen ts
    else t :: dedupFirst (t :: seen) ts

/-- The bend loop of the horizontal branch of `pickRandomRiverTiles`: per
bend, a column stride with jitter (capped at `cols - 1`), then a signed
perpendicular jog of magnitude 1–2 clamped into `[1, rows - 2]`; each bend
pushes the two waypoints `[r, c]` and `[r', c]`.  Returns the pushed
waypoints, the final row and the remaining draws. -/
def bendLoopH (rows cols colSteps : ℤ) :
    ℕ → ℕ → ℤ → List ℚ → List Cell × ℤ × List ℚ
  | _, 0, r, ds => ([], r, ds)
  | b, n + 1, r, ds =>
    let p1 := draw ds
    let c := min (cols - 1) (((b : ℤ) + 1) * colSteps + jsFloorMul p1.1 2)
    let p2 := draw p1.2
    let sgn : ℤ := if p2.1 < half then -1 else 1
    let p3 := draw p2.2
    let dr := sgn * (1 + jsFloorMul p3.1 2)
    let r2 := max 1 (min (rows - 2) (r + dr))
    let rest := bendLoopH rows cols colSteps (b + 1) n r2 p3.2
    ((r, c) :: (r2, c) :: rest.1, rest.2)

/-- The bend loop of the vertical branch, mirroring `bendLoopH` with the
roles of rows and columns exchanged. -/
def bendLoopV (rows cols rowSteps : ℤ) :
    ℕ → ℕ → ℤ → List ℚ → List Cell × ℤ × List ℚ
  | _, 0, c, ds => ([], c, ds)
  | b, n + 1, c, ds =>
    let p1 := draw ds
    let r := min (rows - 1) (((b : ℤ) + 1) * rowSteps + jsFloorMul p1.1 2)
    let p2 := draw p1.2
    let sgn : ℤ := if p2.1 < half then -1 else 1
    let p3 := draw p2.2
    let dc := sgn * (1 + jsFloorMul p3.1 2)
    let c2 := max 1 (min (cols - 2) (c + dc))
    let rest := bendLoopV rows cols rowSteps (b + 1) n c2 p3.2
    ((r, c) :: (r, c2) :: rest.1, rest.2)

/-- `pickRandomRiverTiles` from `TileGrid.tsx` (the single-river loop body,
`numRivers = 1`): a 50/50 orientation draw, 2–4 bends, a random start on
the entry edge, the bend loop, the far-edge waypoint, segment emission and
first-occurrence dedup via the `used` set.  The JS float division
`(cols - 2) / (numBends + 1)` under `Math.floor` is the floor-style `ℤ`
division. -/
def pickRandomRiverTiles (rows cols : ℤ) (ds : List ℚ) : List Cell :=
  let pH := draw ds
  let pB := draw pH.2
  let numBends := (2 + jsFloorMul pB.1 3).toNat
  if pH.1 < half then
    let pR := draw pB.2
    let r0 := 2 + jsFloorMul pR.1 (rows - 4)
    let colSteps := max 2 ((cols - 2) / ((numBends : ℤ) + 1))
    let bend := bendLoopH rows cols colSteps 0 numBends r0 pR.2
    dedupFirst []
      (segsOfWaypoints (r0, 0) (bend.1 ++ [(bend.2.1, cols - 1)]))
  else
    let pC := draw pB.2
    let c0 := 2 + jsFloorMul pC.1 (cols - 4)
    let rowSteps := max 2 ((rows - 2) / ((numBends : ℤ) + 1))
    let bend := bendLoopV rows cols rowSteps 0 numBends c0 pC.2
    dedupFirst []
      (segsOfWaypoints (0, c0) (bend.1 ++ [(rows - 1, bend.2.1)]))

/-- Two cells are orthogonally adjacent. -/
def adjCells (a b : Cell) : Prop := manhattanDist a b = 1

/-- Adjacency is decidable. -/
instance (a b : Cell) : Decidable (adjCells a b) := by
  unfold adjCells; infer_instance

/-- A step of a walk inside the cell set `S`. -/
def stepIn (S : List Cell) (a b : Cell) : Prop := b ∈ S ∧ adjCells a b

/-- A cell lies within the `rows × cols` grid. -/
def inGrid (rows cols : ℤ) (p : Cell) : Prop :=
  0 ≤ p.1 ∧ p.1 ≤ rows - 1 ∧ 0 ≤ p.2 ∧ p.2 ≤ cols - 1

/-- Grid membership is decidable. -/
instance (rows cols : ℤ) (p : Cell) : Decidable (inGrid rows cols p) := by
  unfold inGrid; infer_instance

/-- Two waypoints share a row or a column. -/
def aligned (a b : Cell) : Prop := a.1 = b.1 ∨ a.2 = b.2

/-- Validity of a single draw is decidable. -/
instance (d : ℚ) : Decidable (validQ d) := by
  unfold validQ; infer_instance

/-- Validity of a draw list is decidable. -/
instance (ds : List ℚ) : Decidable (validDraws ds) := by
  unfold validDraws; infer_instance

/-- A draw list making the horizontal river on a `20 × 20` grid take an
upward jog of magnitude 2 at its first bend: orientation horizontal, 2
bends, start row 10, first bend at column 6 with jog `-2`. -/
def riverDrawsA : List ℚ := [0, 0, half, 0, 0, half]

end Gridium

namespace Gridium

/-- C6: for every store state and every delta, the position computed by
`moveCharacter` is exactly the spec's `move` applied to the current position,
the delta, the fixed bounds `28 × 20`, and the tree-obstacle set: the
candidate is rejected wholesale when it is an obstacle and otherwise each
axis is clamped independently into `[0, dimension - 1]`; the rule is a total
function and never signals failure. -/
theorem moveCharacter_refines_moveSpec (s : GameStore) (dRow dCol : ℤ) :
    ((moveCharacter dRow dCol s).characterRow,
     (moveCharacter dRow dCol s).characterCol) =
      moveSpec (s.characterRow, s.characterCol) (dRow, dCol) 28 20
        s.treePositions := by
  simp only [moveCharacter, moveSpec]
  split
  · rfl
  · norm_num

/-- C9: `moveCharacter` changes at most the two position fields: `score`,
`gameState`, `terrain` and `treePositions` are preserved by every move, and
a blocked move returns the whole state unchanged. -/
theorem moveCharacter_frame (s : GameStore) (dRow dCol : ℤ) :
    (moveCharacter dRow dCol s).score = s.score ∧
    (moveCharacter dRow dCol s).gameState = s.gameState ∧
    (moveCharacter dRow dCol s).terrain = s.terrain ∧
    (moveCharacter dRow dCol s).treePositions = s.treePositions ∧
    ((s.characterRow + dRow, s.characterCol + dCol) ∈ s.treePositions →
      moveCharacter dRow dCol s = s) := by
  simp only [moveCharacter]
  split
  · exact ⟨rfl, rfl, rfl, rfl, fun _ => rfl⟩
  · next h => exact ⟨rfl, rfl, rfl, rfl, fun hmem => absurd hmem h⟩

/-- Witness for C9 at a concrete blocked move: from `(12, 8)` with a tree at
`(13, 9)`, the move `(1, 1)` preserves every non-position field and in fact
returns the state unchanged. -/
theorem moveCharacter_frame_witness :
    (moveCharacter 1 1 blockedStore).score = blockedStore.score ∧
    moveCharacter 1 1 blockedStore = blockedStore :=
  ⟨(moveCharacter_frame blockedStore 1 1).1,
   (moveCharacter_frame blockedStore 1 1).2.2.2.2 (by decide)⟩

/-- C8: applying `moveCharacter` with the zero delta to any state whose
position is in bounds returns the same position, for every obstacle set. -/
theorem moveCharacter_zero_delta (s : GameStore)
    (h1 : 0 ≤ s.characterRow) (h2 : s.characterRow ≤ 27)
    (h3 : 0 ≤ s.characterCol) (h4 : s.characterCol ≤ 19) :
    (moveCharacter 0 0 s).characterRow = s.characterRow ∧
    (moveCharacter 0 0 s).characterCol = s.characterCol := by
  simp only [moveCharacter]
  split
  · exact ⟨rfl, rfl⟩
  · constructor <;> simp <;> omega

/-- Witness for C8 at the concrete state `blockedStore` (position
`(12, 8)`, a nonempty obstacle set). -/
theorem moveCharacter_zero_delta_witness :
    (moveCharacter 0 0 blockedStore).characterRow =
      blockedStore.characterRow ∧
    (moveCharacter 0 0 blockedStore).characterCol =
      blockedStore.characterCol :=
  moveCharacter_zero_delta blockedStore (by decide) (by decide) (by decide)
    (by decide)

/-- Counterexample to C1 as stated: with the single obstacle `(27, 5)` and
the in-bounds, obstacle-free position `(27, 4)`, the delta `(1, 1)` gives
the unclamped candidate `(28, 5)`, which is not an obstacle, so the move is
accepted and clamped to `(27, 5)` — a cell of the obstacle set. -/
theorem moveCharacter_lands_on_obstacle :
    ((moveCharacter 1 1 cornerStore).characterRow,
     (moveCharacter 1 1 cornerStore).characterCol) = (27, 5) ∧
    ((27 : ℤ), (5 : ℤ)) ∈ cornerStore.treePositions := by decide

/-- C1 amended: for a state whose position is in bounds and off the
obstacles, the position returned by `moveCharacter` always lies within
`[0, 27] × [0, 19]`; and provided the unclamped target
`position + delta` itself lies within those bounds, the returned position is
never an obstacle cell.  (When the target is out of bounds, clamping can
land the character on an obstacle, as the counterexample shows.) -/
theorem moveCharacter_safe (s : GameStore) (dRow dCol : ℤ)
    (hr0 : 0 ≤ s.characterRow) (hr1 : s.characterRow ≤ 27)
    (hc0 : 0 ≤ s.characterCol) (hc1 : s.characterCol ≤ 19)
    (hfree : (s.characterRow, s.characterCol) ∉ s.treePositions) :
    (0 ≤ (moveCharacter dRow dCol s).characterRow ∧
     (moveCharacter dRow dCol s).characterRow ≤ 27 ∧
     0 ≤ (moveCharacter dRow dCol s).characterCol ∧
     (moveCharacter dRow dCol s).characterCol ≤ 19) ∧
    ((0 ≤ s.characterRow + dRow ∧ s.characterRow + dRow ≤ 27 ∧
      0 ≤ s.characterCol + dCol ∧ s.characterCol + dCol ≤ 19) →
      ((moveCharacter dRow dCol s).characterRow,
       (moveCharacter dRow dCol s).characterCol) ∉ s.treePositions) := by
  simp only [moveCharacter]
  split
  · next hblock =>
    refine ⟨⟨hr0, hr1, hc0, hc1⟩, fun _ => hfree⟩
  · next hopen =>
    refine ⟨⟨?_, ?_, ?_, ?_⟩, fun hin => ?_⟩
    · simp
    · simp
    · simp
    · simp
    · have hrow : max 0 (min 27 (s.characterRow + dRow)) =
        s.characterRow + dRow := by omega
      have hcol : max 0 (min 19 (s.characterCol + dCol)) =
        s.characterCol + dCol := by omega
      simpa [hrow, hcol] using hopen

/-- Witness for C1 amended at a concrete input: from `(12, 8)` with a tree
at `(13, 9)`, the (blocked) move `(1, 1)` keeps the position in bounds and
off the tree. -/
theorem moveCharacter_safe_witness :
    (0 ≤ (moveCharacter 1 1 blockedStore).characterRow ∧
     (moveCharacter 1 1 blockedStore).characterRow ≤ 27 ∧
     0 ≤ (moveCharacter 1 1 blockedStore).characterCol ∧
     (moveCharacter 1 1 blockedStore).characterCol ≤ 19) ∧
    ((moveCharacter 1 1 blockedStore).characterRow,
     (moveCharacter 1 1 blockedStore).characterCol) ∉
      blockedStore.treePositions :=
  ⟨(moveCharacter_safe blockedStore 1 1 (by decide) (by decide) (by decide)
      (by decide) (by decide)).1,
   (moveCharacter_safe blockedStore 1 1 (by decide) (by decide) (by decide)
      (by decide) (by decide)).2 (by decide)⟩

/-- Counterexample to C7 as stated: the code's movement rule clamps to the
hardcoded `28 × 20` grid (rows `[0, 27]`, cols `[0, 19]`), not to an
`8 × 8` grid, so eight diagonal `(1, 1)` moves from `(0, 0)` with no
obstacles do not land at `(7, 7)`. -/
theorem eight_diagonal_moves_ne :
    ((Nat.iterate (moveCharacter 1 1) 8 originStore).characterRow,
     (Nat.iterate (moveCharacter 1 1) 8 originStore).characterCol) ≠
      ((7 : ℤ), (7 : ℤ)) := by decide

/-- C7 amended: starting at `(0, 0)` with no obstacles and applying
`moveCharacter` with delta `(1, 1)` eight times yields `(8, 8)`: on the
code's fixed `28 × 20` grid the coordinate `0 + 8 = 8` is below both clamp
bounds (27 and 19), so no clamping occurs. -/
theorem eight_diagonal_moves_eq :
    ((Nat.iterate (moveCharacter 1 1) 8 originStore).characterRow,
     (Nat.iterate (moveCharacter 1 1) 8 originStore).characterCol) =
      ((8 : ℤ), (8 : ℤ)) := by decide

/-- C10: a `null` terrain (queried before generation completes) yields the
default base-land elevation `-STEP_HEIGHT`, for every cell; the lookup
never fails. -/
theorem getElevationFromTerrain_none (row col : ℤ) :
    getElevationFromTerrain none row col = -STEP_HEIGHT := rfl

/-- C4: for every terrain bundle and cell, `getElevationFromTerrain` returns
`STEP_HEIGHT` times the step value of the first band of the fixed priority
order (peak > slope-near > slope-inner > river > lake > river-adjacent >
lake-adjacent > slope-outer > default) whose set holds the cell, the step
values being `+2, +1, +0.5, -2, -2, -2, -2, 0, -1`; in particular a
non-peak cell lying both in the peak-adjacent set `graySet` and in a
water-adjacent set resolves to the peak-derived elevation `+1` step. -/
theorem getElevationFromTerrain_priority (t : TerrainData) (row col : ℤ) :
    getElevationFromTerrain (some t) row col = elevationSpec t (row, col) ∧
    (((row, col) ∉ t.blackSet ∧ (row, col) ∈ t.graySet) →
      getElevationFromTerrain (some t) row col = STEP_HEIGHT) := by
  have hmain : getElevationFromTerrain (some t) row col =
      elevationSpec t (row, col) := by
    simp only [getElevationFromTerrain, elevationSpec, firstBand,
      priorityOrder, List.find?]
    by_cases h1 : (row, col) ∈ t.blackSet <;>
      by_cases h2 : (row, col) ∈ t.graySet <;>
        by_cases h3 : (row, col) ∈ t.darkGreenInner <;>
          by_cases h4 : (row, col) ∈ t.riverSet <;>
            by_cases h5 : (row, col) ∈ t.lakeSet <;>
              by_cases h6 : (row, col) ∈ t.riverAdjacentSet <;>
                by_cases h7 : (row, col) ∈ t.lakeAdjacentSet <;>
                  by_cases h8 : (row, col) ∈ t.darkGreenOuter <;>
                    simp [h1, h2, h3, h4, h5, h6, h7, h8, bandMembers,
                      bandSteps, STEP_HEIGHT] <;> norm_num
  refine ⟨hmain, fun ⟨hb, hg⟩ => ?_⟩
  simp [getElevationFromTerrain, hb, hg]

/-- Witness for C4 at a concrete overlapping bundle: in `overlapTerrain` the
cell `(1, 1)` lies in both `graySet` and `riverAdjacentSet`, and the lookup
resolves to the peak-adjacent value `STEP_HEIGHT`. -/
theorem getElevationFromTerrain_priority_witness :
    getElevationFromTerrain (some overlapTerrain) 1 1 =
      elevationSpec overlapTerrain (1, 1) ∧
    getElevationFromTerrain (some overlapTerrain) 1 1 = STEP_HEIGHT :=
  ⟨(getElevationFromTerrain_priority overlapTerrain 1 1).1,
   (getElevationFromTerrain_priority overlapTerrain 1 1).2
     (by constructor <;> decide)⟩

/-- `jsFloorMul` is the floor of the product, as `Math.floor(u * k)`
computes. -/
theorem jsFloorMul_eq_floor (d : ℚ) (k : ℤ) :
    jsFloorMul d k = ⌊d * (k : ℚ)⌋ := by
  rw [jsFloorMul, ← Rat.floor_intCast_div_natCast]
  congr 1
  push_cast
  rw [mul_comm, mul_div_assoc, Rat.num_div_den]
  ring

/-- Appending one element to a nonempty list appends it to the tail. -/
theorem tail_append_singleton {α : Type} (l : List α) (a : α) (h : l ≠ []) :
    (l ++ [a]).tail = l.tail ++ [a] := by
  cases l with
  | nil => exact absurd rfl h
  | cons x xs => rfl

/-- Loop invariant of the lake frontier growth: every cell of the result
beyond the incoming accumulator's tail avoids the river, because the accept
branch filters river cells. -/
theorem lakeLoop_tail_avoids (rows cols : ℤ) (river : List Cell) (ts : ℤ) :
    ∀ (fuel : ℕ) (lake frontier : List Cell) (ds : List ℚ), lake ≠ [] →
      ∀ c ∈ (lakeLoop rows cols river ts fuel lake frontier ds).tail,
        c ∈ lake.tail ∨ c ∉ river := by
  intro fuel
  induction fuel with
  | zero => intro lake frontier ds _ c hc; exact Or.inl hc
  | succ n ih =>
    intro lake frontier ds hne c hc
    simp only [lakeLoop] at hc
    split at hc
    · exact Or.inl hc
    · split at hc
      · exact ih lake _ _ hne c hc
      · next hnew =>
        have h1 := ih (lake ++ [_]) _ _ (by simp) c hc
        rcases h1 with h1 | h1
        · rw [tail_append_singleton lake _ hne] at h1
          rcases List.mem_append.mp h1 with h2 | h2
          · exact Or.inl h2
          · have h3 : c = _ := List.mem_singleton.mp h2
            rw [h3]
            exact Or.inr (fun hr => hnew (Or.inr hr))
        · exact Or.inr h1

/-- Counterexample to C2 as stated: on an `8 × 8` grid with the river cell
list `[(2, 2)]`, the all-default draw sequence seeds the lake at `(2, 2)`,
which is accepted without a river check; the returned lake contains the
river cell `(2, 2)`, so the lake is not disjoint from the river. -/
theorem pickRandomLakeTiles_seed_on_river :
    ((2 : ℤ), (2 : ℤ)) ∈ pickRandomLakeTiles 8 8 [(2, 2)] [] ∧
    ((2 : ℤ), (2 : ℤ)) ∈ ([(2, 2)] : List Cell) := by decide

/-- C2 amended: every returned lake cell other than the first (the seed) is
distinct from every river cell, for every grid, river list and random draw;
the seed itself is accepted without a river check and may coincide with a
river cell. -/
theorem pickRandomLakeTiles_tail_disjoint (rows cols : ℤ)
    (riverTiles : List Cell) (ds : List ℚ) :
    ∀ c ∈ (pickRandomLakeTiles rows cols riverTiles ds).tail,
      c ∉ riverTiles := by
  intro c hc
  simp only [pickRandomLakeTiles] at hc
  have h := lakeLoop_tail_avoids rows cols riverTiles _ _ _ _ _
    (by simp) c hc
  rcases h with h | h
  · simp at h
  · exact h

/-- Witness for C2 amended at a concrete run: with river `[(0, 0)]` and
default draws, the first grown cell `(1, 2)` lies in the tail of the result
and is not a river cell. -/
theorem pickRandomLakeTiles_tail_disjoint_witness :
    ((1 : ℤ), (2 : ℤ)) ∉ ([(0, 0)] : List Cell) :=
  pickRandomLakeTiles_tail_disjoint 8 8 [(0, 0)] [] (1, 2) (by decide)

/-- Manhattan distance is symmetric. -/
theorem manhattanDist_comm (a b : Cell) :
    manhattanDist a b = manhattanDist b a := by
  simp [manhattanDist, abs_sub_comm]

/-- The cluster-absorption loop adds at most one cell per step. -/
theorem clusterPickLoop_length :
    ∀ (n : ℕ) (cl adj : List Cell) (ds : List ℚ),
      (clusterPickLoop n cl adj ds).1.length ≤ cl.length + n := by
  intro n
  induction n with
  | zero => intro cl adj ds; simp [clusterPickLoop]
  | succ m ih =>
    intro cl adj ds
    simp only [clusterPickLoop]
    split
    · simp
    · refine le_trans (ih _ _ _) ?_
      simp
      omega

/-- Arithmetic of the global peak budget: a cluster of at most
`1 + (cs - 1).toNat` cells, with `cs` capped at the remaining budget
`16 - len` and `len < 16`, keeps the total within 16. -/
theorem mountainSizeBound (cs : ℤ) (len : ℕ) (cl : List Cell)
    (hcl : cl.length ≤ 1 + (cs - 1).toNat)
    (hcs : cs ≤ 16 - (len : ℤ)) (hlen : len < 16) :
    cl.length + len ≤ 16 := by omega

/-- Appending a cluster that passed all distance checks preserves the
mountain invariant. -/
theorem goodClusters_accept (river lake : List Cell)
    (clusters : List (List Cell)) (cluster : List Cell)
    (h : goodClusters river lake clusters)
    (hsize : cluster.length + clusters.flatten.length ≤ 16)
    (hfar : ∀ t ∈ clusters.flatten, ∀ ct ∈ cluster,
      MIN_GAP < manhattanDist t ct)
    (hriver : ∀ ct ∈ cluster, ∀ rt ∈ river,
      RIVER_MOUNTAIN_GAP ≤ manhattanDist ct rt)
    (hlake : ∀ ct ∈ cluster, ∀ lt ∈ lake,
      RIVER_MOUNTAIN_GAP ≤ manhattanDist ct lt) :
    goodClusters river lake (clusters ++ [cluster]) := by
  rcases h with ⟨hpw, hwater, _⟩
  refine ⟨?_, ?_, ?_⟩
  · rw [List.pairwise_append]
    refine ⟨hpw, List.pairwise_singleton _ _, ?_⟩
    intro C hC C' hC' a ha b hb
    have hC'' : C' = cluster := by simpa using hC'
    subst hC''
    exact hfar a (List.mem_flatten.mpr ⟨C, hC, ha⟩) b hb
  · intro p hp w hw
    rw [List.flatten_append] at hp
    rcases List.mem_append.mp hp with hp | hp
    · exact hwater p hp w hw
    · have hp' : p ∈ cluster := by simpa using hp
      rcases List.mem_append.mp hw with hw | hw
      · exact hriver p hp' w hw
      · exact hlake p hp' w hw
  · rw [List.flatten_append]
    simp only [List.length_append]
    have : ([cluster] : List (List Cell)).flatten.length = cluster.length := by
      simp
    omega

/-- Loop invariant of the mountain generator: the cluster list stays
`goodClusters` through every attempt, because a candidate cluster is
accepted only after all separation, overlap and water-distance checks
pass, and its size is capped at the remaining global budget. -/
theorem blackLoop_good (rows cols : ℤ) (river lake : List Cell) (nc : ℕ) :
    ∀ (fuel : ℕ) (clusters : List (List Cell)) (added : ℕ) (ds : List ℚ),
      goodClusters river lake clusters →
      goodClusters river lake
        (blackLoop rows cols river lake nc fuel clusters added ds) := by
  intro fuel
  induction fuel with
  | zero => intro clusters added ds h; exact h
  | succ n ih =>
    intro clusters added ds h
    simp only [blackLoop]
    split
    · next hguard =>
      split
      · exact ih _ _ _ h
      · next hok =>
        simp only [Bool.or_eq_true, not_or] at hok
        obtain ⟨⟨⟨⟨h1, h2⟩, h3⟩, h4⟩, h5⟩ := hok
        simp only [List.any_eq_true, decide_eq_true_eq, not_exists,
          not_and, not_le, not_lt] at h1 h4 h5
        apply ih
        apply goodClusters_accept river lake clusters _ h ?_ h1 h4 h5
        exact mountainSizeBound _ _ _
          (by simpa using clusterPickLoop_length _ _ _ _)
          inf_le_right hguard.2
    · exact h

/-- C5: under every random draw, any two clusters accepted by the mountain
generator at distinct positions are separated by Manhattan distance
strictly greater than 8 cell-to-cell, every returned peak cell is at
Manhattan distance at least 5 from every river and lake cell, and at most
16 peak cells are returned in total. -/
theorem pickRandomBlackTiles_invariants (rows cols : ℤ)
    (riverTiles lakeTiles : List Cell) (ds : List ℚ) :
    (∀ i j :
        Fin (pickRandomBlackClusters rows cols riverTiles lakeTiles
          ds).length,
      i ≠ j →
      ∀ a ∈ (pickRandomBlackClusters rows cols riverTiles lakeTiles
        ds).get i,
      ∀ b ∈ (pickRandomBlackClusters rows cols riverTiles lakeTiles
        ds).get j,
        8 < manhattanDist a b) ∧
    (∀ p ∈ pickRandomBlackTiles rows cols riverTiles lakeTiles ds,
      ∀ w ∈ riverTiles ++ lakeTiles, 5 ≤ manhattanDist p w) ∧
    (pickRandomBlackTiles rows cols riverTiles lakeTiles ds).length ≤ 16 :=
  by
  have hg : goodClusters riverTiles lakeTiles
      (pickRandomBlackClusters rows cols riverTiles lakeTiles ds) := by
    simp only [pickRandomBlackClusters]
    exact blackLoop_good rows cols riverTiles lakeTiles _ _ [] 0 _
      ⟨List.Pairwise.nil, by simp, by simp⟩
  rcases hg with ⟨hpw, hwater, hlen⟩
  refine ⟨?_, hwater, hlen⟩
  intro i j hij a ha b hb
  rcases hij.lt_or_lt with hlt | hlt
  · exact (List.pairwise_iff_get.mp hpw i j hlt) a ha b hb
  · have := (List.pairwise_iff_get.mp hpw j i hlt) b hb a ha
    rw [manhattanDist_comm]
    exact this

/-- Membership in `intRangeAux`. -/
theorem mem_intRangeAux : ∀ (n : ℕ) (a x : ℤ),
    x ∈ intRangeAux a n ↔ a ≤ x ∧ x < a + n := by
  intro n
  induction n with
  | zero => intro a x; simp [intRangeAux]
  | succ m ih =>
    intro a x
    rw [show intRangeAux a (m + 1) = a :: intRangeAux (a + 1) m from rfl,
      List.mem_cons, ih]
    push_cast
    omega

/-- Membership in `intRange` is the interval condition. -/
theorem mem_intRange {a b x : ℤ} : x ∈ intRange a b ↔ a ≤ x ∧ x ≤ b := by
  unfold intRange
  rw [mem_intRangeAux]
  omega

/-- `intRangeAux` lists consecutive integers. -/
theorem chain'_intRangeAux : ∀ (n : ℕ) (a : ℤ),
    List.Chain' (fun x y => y = x + 1) (intRangeAux a n) := by
  intro n
  induction n with
  | zero => intro a; simp [intRangeAux]
  | succ m ih =>
    intro a
    refine List.chain'_cons'.mpr ⟨?_, ih (a + 1)⟩
    intro y hy
    cases m with
    | zero => simp [intRangeAux] at hy
    | succ k =>
      rw [show intRangeAux (a + 1) (k + 1) =
        (a + 1) :: intRangeAux (a + 1 + 1) k from rfl] at hy
      simp only [List.head?_cons, Option.mem_def, Option.some.injEq] at hy
      omega

/-- `intRange` lists consecutive integers. -/
theorem chain'_intRange (a b : ℤ) :
    List.Chain' (fun x y => y = x + 1) (intRange a b) :=
  chain'_intRangeAux _ _

/-- Orthogonal adjacency is symmetric. -/
theorem adjCells_symm {a b : Cell} (h : adjCells a b) : adjCells b a := by
  unfold adjCells at h ⊢
  rwa [manhattanDist_comm]

/-- The cells of one straight segment are consecutively adjacent in the
emitted (min-to-max) order. -/
theorem chain'_segmentTiles (w1 w2 : Cell) :
    List.Chain' adjCells (segmentTiles w1 w2) := by
  unfold segmentTiles
  split
  · rw [List.chain'_map]
    refine (chain'_intRange _ _).imp ?_
    intro x y h
    subst h
    show manhattanDist (w1.1, x) (w1.1, x + 1) = 1
    unfold manhattanDist
    simp only
    have h2 : x - (x + 1) = -1 := by ring
    rw [sub_self, h2]
    norm_num
  · rw [List.chain'_map]
    refine (chain'_intRange _ _).imp ?_
    intro x y h
    subst h
    show manhattanDist (x, w1.2) (x + 1, w1.2) = 1
    unfold manhattanDist
    simp only
    have h2 : x - (x + 1) = -1 := by ring
    rw [sub_self, h2]
    norm_num

/-- A walk inside a smaller cell set is a walk inside a larger one. -/
theorem reach_mono {S T : List Cell} (hsub : ∀ x ∈ S, x ∈ T) {a b : Cell}
    (h : Relation.ReflTransGen (stepIn S) a b) :
    Relation.ReflTransGen (stepIn T) a b :=
  Relation.ReflTransGen.mono (fun _ y hxy => ⟨hsub y hxy.1, hxy.2⟩) h

/-- In a list of consecutively adjacent cells, every member is mutually
reachable with the head by steps inside the list. -/
theorem chain_reach_head :
    ∀ (L : List Cell), List.Chain' adjCells L →
      ∀ x ∈ L,
        Relation.ReflTransGen (stepIn L) (L.headD (0, 0)) x ∧
        Relation.ReflTransGen (stepIn L) x (L.headD (0, 0)) := by
  intro L
  induction L with
  | nil => intro _ x hx; cases hx
  | cons w rest ih =>
    intro hch x hx
    rcases List.mem_cons.mp hx with rfl | hx'
    · exact ⟨.refl, .refl⟩
    · cases rest with
      | nil => cases hx'
      | cons w2 rest2 =>
        have hadj : adjCells w w2 := (List.chain'_cons.mp hch).1
        have hch2 : List.Chain' adjCells (w2 :: rest2) :=
          (List.chain'_cons.mp hch).2
        obtain ⟨hfwd, hbwd⟩ := ih hch2 x hx'
        have hsub : ∀ y ∈ w2 :: rest2, y ∈ w :: w2 :: rest2 :=
          fun y hy => List.mem_cons_of_mem _ hy
        refine ⟨?_, ?_⟩
        · exact Relation.ReflTransGen.head ⟨by simp, hadj⟩
            (reach_mono hsub hfwd)
        · exact Relation.ReflTransGen.tail (reach_mono hsub hbwd)
            ⟨by simp, adjCells_symm hadj⟩

/-- Any two members of a consecutively adjacent list are mutually
reachable inside the list. -/
theorem chain_reach (L : List Cell) (hch : List.Chain' adjCells L)
    {x y : Cell} (hx : x ∈ L) (hy : y ∈ L) :
    Relation.ReflTransGen (stepIn L) x y :=
  ((chain_reach_head L hch x hx).2).trans ((chain_reach_head L hch y hy).1)

/-- Membership after the `used`-set filter. -/
theorem mem_dedupFirst : ∀ (l seen : List Cell) (x : Cell),
    x ∈ dedupFirst seen l ↔ x ∈ l ∧ x ∉ seen := by
  intro l
  induction l with
  | nil => intro seen x; simp [dedupFirst]
  | cons t ts ih =>
    intro seen x
    simp only [dedupFirst]
    split
    · next ht =>
      rw [ih, List.mem_cons]
      constructor
      · rintro ⟨h1, h2⟩
        exact ⟨Or.inr h1, h2⟩
      · rintro ⟨h1 | h1, h2⟩
        · subst h1; exact absurd ht h2
        · exact ⟨h1, h2⟩
    · next ht =>
      rw [List.mem_cons, ih]
      simp only [List.mem_cons, not_or]
      constructor
      · rintro (rfl | ⟨h1, hne, h2⟩)
        · exact ⟨Or.inl rfl, ht⟩
        · exact ⟨Or.inr h1, h2⟩
      · rintro ⟨h1 | h1, h2⟩
        · exact Or.inl h1
        · by_cases hxt : x = t
          · exact Or.inl hxt
          · exact Or.inr ⟨h1, hxt, h2⟩

/-- The `used`-set filter yields a duplicate-free list. -/
theorem nodup_dedupFirst : ∀ (l seen : List Cell),
    (dedupFirst seen l).Nodup := by
  intro l
  induction l with
  | nil => intro seen; simp [dedupFirst]
  | cons t ts ih =>
    intro seen
    simp only [dedupFirst]
    split
    · exact ih seen
    · refine List.nodup_cons.mpr ⟨?_, ih _⟩
      intro hmem
      rw [mem_dedupFirst] at hmem
      exact hmem.2 (List.mem_cons_self t seen)

/-- A segment always holds its first endpoint. -/
theorem self_mem_segmentTiles (w1 w2 : Cell) : w1 ∈ segmentTiles w1 w2 := by
  obtain ⟨r1, c1⟩ := w1
  obtain ⟨r2, c2⟩ := w2
  unfold segmentTiles
  split
  · exact List.mem_map.mpr
      ⟨c1, mem_intRange.mpr ⟨min_le_left _ _, le_max_left _ _⟩, rfl⟩
  · exact List.mem_map.mpr
      ⟨r1, mem_intRange.mpr ⟨min_le_left _ _, le_max_left _ _⟩, rfl⟩

/-- A segment between aligned endpoints holds its second endpoint. -/
theorem snd_mem_segmentTiles (w1 w2 : Cell) (hal : aligned w1 w2) :
    w2 ∈ segmentTiles w1 w2 := by
  obtain ⟨r1, c1⟩ := w1
  obtain ⟨r2, c2⟩ := w2
  unfold segmentTiles
  split
  · next h =>
    refine List.mem_map.mpr
      ⟨c2, mem_intRange.mpr ⟨min_le_right _ _, le_max_right _ _⟩, ?_⟩
    have h' : r1 = r2 := h
    rw [h']
  · next h =>
    rcases show r1 = r2 ∨ c1 = c2 from hal with h' | h'
    · exact absurd h' h
    · refine List.mem_map.mpr
        ⟨r2, mem_intRange.mpr ⟨min_le_right _ _, le_max_right _ _⟩, ?_⟩
      rw [show c1 = c2 from h']

/-- Every segment cell lies between its in-grid endpoints. -/
theorem inGrid_segmentTiles {rows cols : ℤ} {w1 w2 : Cell}
    (h1 : inGrid rows cols w1) (h2 : inGrid rows cols w2) :
    ∀ p ∈ segmentTiles w1 w2, inGrid rows cols p := by
  obtain ⟨r1, c1⟩ := w1
  obtain ⟨r2, c2⟩ := w2
  obtain ⟨ha, hb, hc, hd⟩ :=
    show 0 ≤ r1 ∧ r1 ≤ rows - 1 ∧ 0 ≤ c1 ∧ c1 ≤ cols - 1 from h1
  obtain ⟨ha', hb', hc', hd'⟩ :=
    show 0 ≤ r2 ∧ r2 ≤ rows - 1 ∧ 0 ≤ c2 ∧ c2 ≤ cols - 1 from h2
  intro p hp
  unfold segmentTiles at hp
  split at hp
  · obtain ⟨c, hcmem, rfl⟩ := List.mem_map.mp hp
    rw [mem_intRange] at hcmem
    exact show 0 ≤ r1 ∧ r1 ≤ rows - 1 ∧ 0 ≤ c ∧ c ≤ cols - 1 from
      ⟨ha, hb, by omega, by omega⟩
  · obtain ⟨r, hrmem, rfl⟩ := List.mem_map.mp hp
    rw [mem_intRange] at hrmem
    exact show 0 ≤ r ∧ r ≤ rows - 1 ∧ 0 ≤ c1 ∧ c1 ≤ cols - 1 from
      ⟨by omega, by omega, hc, hd⟩

/-- All cells emitted between in-grid waypoints lie in the grid. -/
theorem inGrid_segsOfWaypoints {rows cols : ℤ} :
    ∀ (ws : List Cell) (w : Cell), inGrid rows cols w →
      (∀ u ∈ ws, inGrid rows cols u) →
      ∀ p ∈ segsOfWaypoints w ws, inGrid rows cols p := by
  intro ws
  induction ws with
  | nil => intro w _ _ p hp; cases hp
  | cons w2 rest ih =>
    intro w hw hws p hp
    rcases List.mem_append.mp hp with hp' | hp'
    · exact inGrid_segmentTiles hw (hws w2 (List.mem_cons_self _ _)) p hp'
    · exact ih w2 (hws w2 (List.mem_cons_self _ _))
        (fun u hu => hws u (List.mem_cons_of_mem _ hu)) p hp'

/-- The first waypoint is among the emitted cells. -/
theorem head_mem_segsOfWaypoints (w : Cell) (ws : List Cell)
    (hne : ws ≠ []) : w ∈ segsOfWaypoints w ws := by
  cases ws with
  | nil => exact absurd rfl hne
  | cons w2 rest =>
    exact List.mem_append_left _ (self_mem_segmentTiles w w2)

/-- The waypoint closing a chain-aligned waypoint run is among the emitted
cells. -/
theorem concat_mem_segsOfWaypoints :
    ∀ (ws : List Cell) (w v : Cell),
      List.Chain' aligned (w :: ws ++ [v]) →
      v ∈ segsOfWaypoints w (ws ++ [v]) := by
  intro ws
  induction ws with
  | nil =>
    intro w v hch
    exact List.mem_append_left _
      (snd_mem_segmentTiles w v (List.chain'_cons.mp hch).1)
  | cons u rest ih =>
    intro w v hch
    exact List.mem_append_right _
      (ih u v (List.chain'_cons.mp hch).2)

/-- Every emitted cell is reachable from the first waypoint by orthogonal
steps inside the emitted cell set, provided consecutive waypoints are
aligned. -/
theorem reach_segsOfWaypoints :
    ∀ (ws : List Cell) (w : Cell),
      List.Chain' aligned (w :: ws) →
      ∀ p ∈ segsOfWaypoints w ws,
        Relation.ReflTransGen (stepIn (segsOfWaypoints w ws)) w p := by
  intro ws
  induction ws with
  | nil => intro w _ p hp; cases hp
  | cons w2 rest ih =>
    intro w hch p hp
    have hal : aligned w w2 := (List.chain'_cons.mp hch).1
    have hch2 : List.Chain' aligned (w2 :: rest) :=
      (List.chain'_cons.mp hch).2
    have hsubL : ∀ x ∈ segmentTiles w w2,
        x ∈ segsOfWaypoints w (w2 :: rest) :=
      fun x hx => List.mem_append_left _ hx
    have hsubR : ∀ x ∈ segsOfWaypoints w2 rest,
        x ∈ segsOfWaypoints w (w2 :: rest) :=
      fun x hx => List.mem_append_right _ hx
    rcases List.mem_append.mp hp with hp' | hp'
    · exact reach_mono hsubL
        (chain_reach _ (chain'_segmentTiles w w2)
          (self_mem_segmentTiles w w2) hp')
    · refine Relation.ReflTransGen.trans
        (reach_mono hsubL
          (chain_reach _ (chain'_segmentTiles w w2)
            (self_mem_segmentTiles w w2)
            (snd_mem_segmentTiles w w2 hal)))
        (reach_mono hsubR (ih w2 hch2 p hp'))

/-- The consumed draw of a valid list is valid (an exhausted list yields
the valid draw `0`). -/
theorem draw_fst_valid {ds : List ℚ} (h : validDraws ds) :
    validQ (draw ds).1 := by
  cases ds with
  | nil => exact ⟨by norm_num [draw], by norm_num [draw]⟩
  | cons d rest => exact h d (List.mem_cons_self _ _)

/-- The remaining draws of a valid list are valid. -/
theorem draw_snd_valid {ds : List ℚ} (h : validDraws ds) :
    validDraws (draw ds).2 := by
  cases ds with
  | nil => intro x hx; cases hx
  | cons d rest => intro x hx; exact h x (List.mem_cons_of_mem _ hx)

/-- `Math.floor(u * k)` for a valid draw and `k ≥ 0` lies in
`[0, max 0 (k - 1)]`. -/
theorem jsFloorMul_nonneg_le {d : ℚ} (hd : validQ d) {k : ℤ} (hk : 0 ≤ k) :
    0 ≤ jsFloorMul d k ∧ jsFloorMul d k ≤ max 0 (k - 1) := by
  have hd' : 0 ≤ d ∧ d < 1 := hd
  rw [jsFloorMul_eq_floor]
  constructor
  · apply Int.le_floor.mpr
    push_cast
    exact mul_nonneg hd'.1 (by exact_mod_cast hk)
  · rcases eq_or_lt_of_le hk with heq | hpos
    · rw [← heq]
      norm_num
    · have hlt : d * (k : ℚ) < k := by
        have h1 : d * (k : ℚ) < 1 * k :=
          mul_lt_mul_of_pos_right hd'.2 (by exact_mod_cast hpos)
        simpa using h1
      have h2 : ⌊d * (k : ℚ)⌋ < k := Int.floor_lt.mpr (by exact_mod_cast hlt)
      exact le_max_of_le_right (by omega)

/-- `Math.floor(u * k)` for a valid draw and `k < 0` lies in `[k, 0]`. -/
theorem jsFloorMul_neg_bounds {d : ℚ} (hd : validQ d) {k : ℤ} (hk : k < 0) :
    k ≤ jsFloorMul d k ∧ jsFloorMul d k ≤ 0 := by
  have hd' : 0 ≤ d ∧ d < 1 := hd
  rw [jsFloorMul_eq_floor]
  constructor
  · apply Int.le_floor.mpr
    have h1 : d ≤ 1 := le_of_lt hd'.2
    have h2 : (k : ℚ) ≤ 0 := by exact_mod_cast hk.le
    have h3 := mul_le_mul_of_nonpos_right h1 h2
    simpa using h3
  · have h0 : d * (k : ℚ) ≤ 0 := by
      have h1 : d * (k : ℚ) ≤ d * 0 :=
        mul_le_mul_of_nonneg_left (by exact_mod_cast hk.le) hd'.1
      simpa using h1
    have h2 := Int.floor_le_floor h0
    simpa using h2

/-- The random entry-edge coordinate `2 + Math.floor(u * (rows - 4))` lies
in `[1, rows - 1]` whenever `rows ≥ 3`. -/
theorem riverStart_bounds {d : ℚ} (hd : validQ d) {rows : ℤ}
    (hr : 3 ≤ rows) :
    1 ≤ 2 + jsFloorMul d (rows - 4) ∧
    2 + jsFloorMul d (rows - 4) ≤ rows - 1 := by
  rcases le_or_lt 0 (rows - 4) with hk | hk
  · obtain ⟨h1, h2⟩ := jsFloorMul_nonneg_le hd hk
    rcases max_cases 0 (rows - 4 - 1) with ⟨hm, _⟩ | ⟨hm, _⟩ <;>
      rw [hm] at h2 <;> omega
  · obtain ⟨h1, h2⟩ := jsFloorMul_neg_bounds hd hk
    omega

/-- The waypoints pushed by the horizontal bend loop, closed on the left
by any cell of the incoming row and on the right by any cell of the final
row, are chain-aligned. -/
theorem bendLoopH_chain (rows cols colSteps : ℤ) :
    ∀ (n b : ℕ) (r : ℤ) (ds : List ℚ) (x y : ℤ),
      List.Chain' aligned ((r, x) ::
        ((bendLoopH rows cols colSteps b n r ds).1 ++
          [((bendLoopH rows cols colSteps b n r ds).2.1, y)])) := by
  intro n
  induction n with
  | zero =>
    intro b r ds x y
    simp only [bendLoopH, List.nil_append]
    exact List.chain'_cons.mpr ⟨Or.inl rfl, List.chain'_singleton _⟩
  | succ m ih =>
    intro b r ds x y
    simp only [bendLoopH, List.cons_append]
    refine List.chain'_cons.mpr ⟨Or.inl rfl, ?_⟩
    refine List.chain'_cons.mpr ⟨Or.inr rfl, ?_⟩
    exact ih (b + 1) _ _ _ y

/-- The waypoints pushed by the vertical bend loop, closed on the left and
right by cells of the entry and final columns, are chain-aligned. -/
theorem bendLoopV_chain (rows cols rowSteps : ℤ) :
    ∀ (n b : ℕ) (c : ℤ) (ds : List ℚ) (x y : ℤ),
      List.Chain' aligned ((x, c) ::
        ((bendLoopV rows cols rowSteps b n c ds).1 ++
          [(y, (bendLoopV rows cols rowSteps b n c ds).2.1)])) := by
  intro n
  induction n with
  | zero =>
    intro b c ds x y
    simp only [bendLoopV, List.nil_append]
    exact List.chain'_cons.mpr ⟨Or.inr rfl, List.chain'_singleton _⟩
  | succ m ih =>
    intro b c ds x y
    simp only [bendLoopV, List.cons_append]
    refine List.chain'_cons.mpr ⟨Or.inr rfl, ?_⟩
    refine List.chain'_cons.mpr ⟨Or.inl rfl, ?_⟩
    exact ih (b + 1) _ _ _ y

/-- Bounds of the horizontal bend loop under valid draws: every pushed
waypoint keeps its row equal to the incoming row or clamped into
`[1, max 1 (rows - 2)]`, and its column within `[0, cols - 1]`; the final
row obeys the same row bound. -/
theorem bendLoopH_bounds (rows cols colSteps : ℤ) (hcs : 2 ≤ colSteps)
    (hcols : 1 ≤ cols) :
    ∀ (n b : ℕ) (r : ℤ) (ds : List ℚ), validDraws ds →
      (∀ p ∈ (bendLoopH rows cols colSteps b n r ds).1,
        (p.1 = r ∨ (1 ≤ p.1 ∧ p.1 ≤ max 1 (rows - 2))) ∧
        0 ≤ p.2 ∧ p.2 ≤ cols - 1) ∧
      ((bendLoopH rows cols colSteps b n r ds).2.1 = r ∨
        (1 ≤ (bendLoopH rows cols colSteps b n r ds).2.1 ∧
         (bendLoopH rows cols colSteps b n r ds).2.1 ≤ max 1 (rows - 2)))
    := by
  intro n
  induction n with
  | zero =>
    intro b r ds _
    constructor
    · intro p hp
      simp only [bendLoopH] at hp
      cases hp
    · exact Or.inl (by simp only [bendLoopH])
  | succ m ih =>
    intro b r ds hds
    have hd1 : validQ (draw ds).1 := draw_fst_valid hds
    have hds3 : validDraws (draw (draw (draw ds).2).2).2 :=
      draw_snd_valid (draw_snd_valid (draw_snd_valid hds))
    have hr2top : ∀ z : ℤ, max 1 (min (rows - 2) z) ≤ max 1 (rows - 2) :=
      fun z => max_le (le_max_left _ _)
        (le_trans (min_le_left _ _) (le_max_right _ _))
    have hcb : ∀ dq : ℚ, validQ dq →
        0 ≤ min (cols - 1) (((b : ℤ) + 1) * colSteps + jsFloorMul dq 2) ∧
        min (cols - 1) (((b : ℤ) + 1) * colSteps + jsFloorMul dq 2) ≤
          cols - 1 := by
      intro dq hdq
      have hjs := jsFloorMul_nonneg_le hdq (by norm_num : (0:ℤ) ≤ 2)
      have hb1 : (0 : ℤ) ≤ ((b : ℤ) + 1) * colSteps :=
        mul_nonneg (by positivity) (by omega)
      exact ⟨le_min (by omega) (by omega), min_le_left _ _⟩
    constructor
    · intro p hp
      simp only [bendLoopH] at hp
      rcases List.mem_cons.mp hp with rfl | hp
      · exact ⟨Or.inl rfl, (hcb _ hd1).1, (hcb _ hd1).2⟩
      rcases List.mem_cons.mp hp with rfl | hp
      · exact ⟨Or.inr ⟨le_max_left _ _, hr2top _⟩,
          (hcb _ hd1).1, (hcb _ hd1).2⟩
      · obtain ⟨hA, hB⟩ := (ih (b + 1) _ _ hds3).1 p hp
        refine ⟨?_, hB⟩
        rcases hA with hA | hA
        · exact Or.inr ⟨hA ▸ le_max_left _ _, hA ▸ hr2top _⟩
        · exact Or.inr hA
    · have hlast := (ih (b + 1)
        (max 1 (min (rows - 2)
          (r + (if (draw (draw ds).2).1 < half then -1 else 1) *
            (1 + jsFloorMul (draw (draw (draw ds).2).2).1 2))))
        (draw (draw (draw ds).2).2).2 hds3).2
      simp only [bendLoopH]
      rcases hlast with hA | hA
      · rw [hA]
        exact Or.inr ⟨le_max_left _ _, hr2top _⟩
      · exact Or.inr hA

/-- Bounds of the vertical bend loop under valid draws, mirroring
`bendLoopH_bounds`. -/
theorem bendLoopV_bounds (rows cols rowSteps : ℤ) (hrs : 2 ≤ rowSteps)
    (hrows : 1 ≤ rows) :
    ∀ (n b : ℕ) (c : ℤ) (ds : List ℚ), validDraws ds →
      (∀ p ∈ (bendLoopV rows cols rowSteps b n c ds).1,
        (p.2 = c ∨ (1 ≤ p.2 ∧ p.2 ≤ max 1 (cols - 2))) ∧
        0 ≤ p.1 ∧ p.1 ≤ rows - 1) ∧
      ((bendLoopV rows cols rowSteps b n c ds).2.1 = c ∨
        (1 ≤ (bendLoopV rows cols rowSteps b n c ds).2.1 ∧
         (bendLoopV rows cols rowSteps b n c ds).2.1 ≤ max 1 (cols - 2)))
    := by
  intro n
  induction n with
  | zero =>
    intro b c ds _
    constructor
    · intro p hp
      simp only [bendLoopV] at hp
      cases hp
    · exact Or.inl (by simp only [bendLoopV])
  | succ m ih =>
    intro b c ds hds
    have hd1 : validQ (draw ds).1 := draw_fst_valid hds
    have hds3 : validDraws (draw (draw (draw ds).2).2).2 :=
      draw_snd_valid (draw_snd_valid (draw_snd_valid hds))
    have hc2top : ∀ z : ℤ, max 1 (min (cols - 2) z) ≤ max 1 (cols - 2) :=
      fun z => max_le (le_max_left _ _)
        (le_trans (min_le_left _ _) (le_max_right _ _))
    have hrb : ∀ dq : ℚ, validQ dq →
        0 ≤ min (rows - 1) (((b : ℤ) + 1) * rowSteps + jsFloorMul dq 2) ∧
        min (rows - 1) (((b : ℤ) + 1) * rowSteps + jsFloorMul dq 2) ≤
          rows - 1 := by
      intro dq hdq
      have hjs := jsFloorMul_nonneg_le hdq (by norm_num : (0:ℤ) ≤ 2)
      have hb1 : (0 : ℤ) ≤ ((b : ℤ) + 1) * rowSteps :=
        mul_nonneg (by positivity) (by omega)
      exact ⟨le_min (by omega) (by omega), min_le_left _ _⟩
    constructor
    · intro p hp
      simp only [bendLoopV] at hp
      rcases List.mem_cons.mp hp with rfl | hp
      · exact ⟨Or.inl rfl, (hrb _ hd1).1, (hrb _ hd1).2⟩
      rcases List.mem_cons.mp hp with rfl | hp
      · exact ⟨Or.inr ⟨le_max_left _ _, hc2top _⟩,
          (hrb _ hd1).1, (hrb _ hd1).2⟩
      · obtain ⟨hA, hB⟩ := (ih (b + 1) _ _ hds3).1 p hp
        refine ⟨?_, hB⟩
        rcases hA with hA | hA
        · exact Or.inr ⟨hA ▸ le_max_left _ _, hA ▸ hc2top _⟩
        · exact Or.inr hA
    · have hlast := (ih (b + 1)
        (max 1 (min (cols - 2)
          (c + (if (draw (draw ds).2).1 < half then -1 else 1) *
            (1 + jsFloorMul (draw (draw (draw ds).2).2).1 2))))
        (draw (draw (draw ds).2).2).2 hds3).2
      simp only [bendLoopV]
      rcases hlast with hA | hA
      · rw [hA]
        exact Or.inr ⟨le_max_left _ _, hc2top _⟩
      · exact Or.inr hA

/-- Assembly of the river guarantees from a chain-aligned, in-grid
waypoint run: the deduplicated emitted cells are distinct, in-grid, include
the first and last waypoints, and are all reachable from the first
waypoint inside the result. -/
theorem river_assembly (rows cols : ℤ) (w0 wl : Cell) (pairs : List Cell)
    (hchain : List.Chain' aligned (w0 :: (pairs ++ [wl])))
    (hw0 : inGrid rows cols w0) (hwl : inGrid rows cols wl)
    (hpairs : ∀ u ∈ pairs, inGrid rows cols u) :
    (dedupFirst [] (segsOfWaypoints w0 (pairs ++ [wl]))).Nodup ∧
    (∀ p ∈ dedupFirst [] (segsOfWaypoints w0 (pairs ++ [wl])),
      inGrid rows cols p) ∧
    w0 ∈ dedupFirst [] (segsOfWaypoints w0 (pairs ++ [wl])) ∧
    wl ∈ dedupFirst [] (segsOfWaypoints w0 (pairs ++ [wl])) ∧
    (∀ p ∈ dedupFirst [] (segsOfWaypoints w0 (pairs ++ [wl])),
      Relation.ReflTransGen
        (stepIn (dedupFirst [] (segsOfWaypoints w0 (pairs ++ [wl]))))
        w0 p) := by
  have hmemR : ∀ x, x ∈ dedupFirst [] (segsOfWaypoints w0 (pairs ++ [wl]))
      ↔ x ∈ segsOfWaypoints w0 (pairs ++ [wl]) := by
    intro x
    rw [mem_dedupFirst]
    simp
  have hallgrid : ∀ u ∈ pairs ++ [wl], inGrid rows cols u := by
    intro u hu
    rcases List.mem_append.mp hu with h | h
    · exact hpairs u h
    · rw [List.mem_singleton] at h
      rw [h]
      exact hwl
  refine ⟨nodup_dedupFirst _ _, ?_, ?_, ?_, ?_⟩
  · intro p hp
    exact inGrid_segsOfWaypoints _ _ hw0 hallgrid p ((hmemR p).mp hp)
  · exact (hmemR w0).mpr (head_mem_segsOfWaypoints _ _ (by simp))
  · exact (hmemR wl).mpr (concat_mem_segsOfWaypoints pairs w0 wl hchain)
  · intro p hp
    exact reach_mono (fun x hx => (hmemR x).mpr hx)
      (reach_segsOfWaypoints (pairs ++ [wl]) w0 hchain p ((hmemR p).mp hp))

/-- C3 amended: for every grid with `rows, cols ≥ 3` and every valid
random draw, the cell list returned by `pickRandomRiverTiles` is
duplicate-free, never leaves the grid, touches both opposing boundaries of
its chosen orientation (column `0` and `cols - 1` when horizontal, row `0`
and `rows - 1` when vertical), and is connected: some returned cell
reaches every returned cell by orthogonally adjacent steps through
returned cells.  (The returned ORDER is not always step-adjacent, and on
grids with fewer than 3 rows or columns the path can leave the grid — see
the counterexample.) -/
theorem pickRandomRiverTiles_path (rows cols : ℤ) (ds : List ℚ)
    (hrows : 3 ≤ rows) (hcols : 3 ≤ cols) (hds : validDraws ds) :
    (pickRandomRiverTiles rows cols ds).Nodup ∧
    (∀ p ∈ pickRandomRiverTiles rows cols ds, inGrid rows cols p) ∧
    (if (draw ds).1 < half then
      (∃ p ∈ pickRandomRiverTiles rows cols ds, p.2 = 0) ∧
      (∃ p ∈ pickRandomRiverTiles rows cols ds, p.2 = cols - 1)
    else
      (∃ p ∈ pickRandomRiverTiles rows cols ds, p.1 = 0) ∧
      (∃ p ∈ pickRandomRiverTiles rows cols ds, p.1 = rows - 1)) ∧
    (∃ root ∈ pickRandomRiverTiles rows cols ds,
      ∀ p ∈ pickRandomRiverTiles rows cols ds,
        Relation.ReflTransGen (stepIn (pickRandomRiverTiles rows cols ds))
          root p) := by
  have hds1 : validDraws (draw ds).2 := draw_snd_valid hds
  have hds2 : validDraws (draw (draw ds).2).2 := draw_snd_valid hds1
  have hd3 : validQ (draw (draw (draw ds).2).2).1 :=
    draw_fst_valid hds2
  have hds3 : validDraws (draw (draw (draw ds).2).2).2 :=
    draw_snd_valid hds2
  by_cases hH : (draw ds).1 < half
  · simp only [pickRandomRiverTiles, if_pos hH]
    set nb : ℕ := (2 + jsFloorMul (draw (draw ds).2).1 3).toNat with hnb
    set r0 : ℤ := 2 + jsFloorMul (draw (draw (draw ds).2).2).1 (rows - 4)
      with hr0
    set colSteps : ℤ := max 2 ((cols - 2) / ((nb : ℤ) + 1)) with hcolSteps
    set bend := bendLoopH rows cols colSteps 0 nb r0
      (draw (draw (draw ds).2).2).2 with hbend
    have hstart := riverStart_bounds hd3 hrows
    rw [← hr0] at hstart
    have hchain := bendLoopH_chain rows cols colSteps nb 0 r0
      (draw (draw (draw ds).2).2).2 0 (cols - 1)
    rw [← hbend] at hchain
    have hbounds := bendLoopH_bounds rows cols colSteps
      (le_max_left 2 _) (by omega) nb 0 r0
      (draw (draw (draw ds).2).2).2 hds3
    rw [← hbend] at hbounds
    have hmaxr : max 1 (rows - 2) = rows - 2 := max_eq_right (by omega)
    have hw0 : inGrid rows cols (r0, 0) :=
      show 0 ≤ r0 ∧ r0 ≤ rows - 1 ∧ 0 ≤ (0 : ℤ) ∧ (0 : ℤ) ≤ cols - 1 by
        omega
    have hwl : inGrid rows cols (bend.2.1, cols - 1) := by
      rcases hbounds.2 with h | h
      · exact show 0 ≤ bend.2.1 ∧ bend.2.1 ≤ rows - 1 ∧
          0 ≤ cols - 1 ∧ cols - 1 ≤ cols - 1 by omega
      · rw [hmaxr] at h
        exact show 0 ≤ bend.2.1 ∧ bend.2.1 ≤ rows - 1 ∧
          0 ≤ cols - 1 ∧ cols - 1 ≤ cols - 1 by omega
    have hpairs : ∀ u ∈ bend.1, inGrid rows cols u := by
      intro u hu
      obtain ⟨hA, hB⟩ := hbounds.1 u hu
      rw [hmaxr] at hA
      exact show 0 ≤ u.1 ∧ u.1 ≤ rows - 1 ∧ 0 ≤ u.2 ∧ u.2 ≤ cols - 1 by
        omega
    obtain ⟨hnd, hgrid, hw0mem, hwlmem, hconn⟩ :=
      river_assembly rows cols (r0, 0) (bend.2.1, cols - 1) bend.1
        hchain hw0 hwl hpairs
    exact ⟨hnd, hgrid,
      ⟨⟨(r0, 0), hw0mem, rfl⟩, ⟨(bend.2.1, cols - 1), hwlmem, rfl⟩⟩,
      ⟨(r0, 0), hw0mem, hconn⟩⟩
  · simp only [pickRandomRiverTiles, if_neg hH]
    set nb : ℕ := (2 + jsFloorMul (draw (draw ds).2).1 3).toNat with hnb
    set c0 : ℤ := 2 + jsFloorMul (draw (draw (draw ds).2).2).1 (cols - 4)
      with hc0
    set rowSteps : ℤ := max 2 ((rows - 2) / ((nb : ℤ) + 1)) with hrowSteps
    set bend := bendLoopV rows cols rowSteps 0 nb c0
      (draw (draw (draw ds).2).2).2 with hbend
    have hstart := riverStart_bounds hd3 hcols
    rw [← hc0] at hstart
    have hchain := bendLoopV_chain rows cols rowSteps nb 0 c0
      (draw (draw (draw ds).2).2).2 0 (rows - 1)
    rw [← hbend] at hchain
    have hbounds := bendLoopV_bounds rows cols rowSteps
      (le_max_left 2 _) (by omega) nb 0 c0
      (draw (draw (draw ds).2).2).2 hds3
    rw [← hbend] at hbounds
    have hmaxc : max 1 (cols - 2) = cols - 2 := max_eq_right (by omega)
    have hw0 : inGrid rows cols (0, c0) :=
      show 0 ≤ (0 : ℤ) ∧ (0 : ℤ) ≤ rows - 1 ∧ 0 ≤ c0 ∧ c0 ≤ cols - 1 by
        omega
    have hwl : inGrid rows cols (rows - 1, bend.2.1) := by
      rcases hbounds.2 with h | h
      · exact show 0 ≤ rows - 1 ∧ rows - 1 ≤ rows - 1 ∧
          0 ≤ bend.2.1 ∧ bend.2.1 ≤ cols - 1 by omega
      · rw [hmaxc] at h
        exact show 0 ≤ rows - 1 ∧ rows - 1 ≤ rows - 1 ∧
          0 ≤ bend.2.1 ∧ bend.2.1 ≤ cols - 1 by omega
    have hpairs : ∀ u ∈ bend.1, inGrid rows cols u := by
      intro u hu
      obtain ⟨hA, hB⟩ := hbounds.1 u hu
      rw [hmaxc] at hA
      exact show 0 ≤ u.1 ∧ u.1 ≤ rows - 1 ∧ 0 ≤ u.2 ∧ u.2 ≤ cols - 1 by
        omega
    obtain ⟨hnd, hgrid, hw0mem, hwlmem, hconn⟩ :=
      river_assembly rows cols (0, c0) (rows - 1, bend.2.1) bend.1
        hchain hw0 hwl hpairs
    exact ⟨hnd, hgrid,
      ⟨⟨(0, c0), hw0mem, rfl⟩, ⟨(rows - 1, bend.2.1), hwlmem, rfl⟩⟩,
      ⟨(0, c0), hw0mem, hconn⟩⟩

/-- Counterexample to C3 as stated: (i) on a `20 × 20` grid, the draws
`riverDrawsA` produce a river whose seventh and eighth cells, `(10, 6)`
and `(8, 6)`, are not orthogonally adjacent — the ordered list is not a
step-by-step path, because `addSegmentTiles` emits each segment from the
smaller to the larger coordinate and the junction duplicate is dropped;
(ii) on a `2 × 5` grid the all-default draw puts the start cell `(2, 0)`
outside the grid, so the path can leave a grid with fewer than 3 rows. -/
theorem pickRandomRiverTiles_counterexample :
    ((pickRandomRiverTiles 20 20 riverDrawsA).getD 6 (0, 0) = (10, 6) ∧
     (pickRandomRiverTiles 20 20 riverDrawsA).getD 7 (0, 0) = (8, 6) ∧
     7 < (pickRandomRiverTiles 20 20 riverDrawsA).length ∧
     ¬ adjCells ((pickRandomRiverTiles 20 20 riverDrawsA).getD 6 (0, 0))
       ((pickRandomRiverTiles 20 20 riverDrawsA).getD 7 (0, 0))) ∧
    (((2 : ℤ), (0 : ℤ)) ∈ pickRandomRiverTiles 2 5 ([] : List ℚ) ∧
     ¬ inGrid 2 5 (2, 0)) := by decide

/-- Witness for C3 amended at a concrete input: the draws `riverDrawsA`
are valid and the bounds `20 ≥ 3` hold, so the amended theorem applies. -/
theorem pickRandomRiverTiles_path_witness :
    (pickRandomRiverTiles 20 20 riverDrawsA).Nodup ∧
    (∀ p ∈ pickRandomRiverTiles 20 20 riverDrawsA, inGrid 20 20 p) ∧
    (if (draw riverDrawsA).1 < half then
      (∃ p ∈ pickRandomRiverTiles 20 20 riverDrawsA, p.2 = 0) ∧
      (∃ p ∈ pickRandomRiverTiles 20 20 riverDrawsA, p.2 = 20 - 1)
    else
      (∃ p ∈ pickRandomRiverTiles 20 20 riverDrawsA, p.1 = 0) ∧
      (∃ p ∈ pickRandomRiverTiles 20 20 riverDrawsA, p.1 = 20 - 1)) ∧
    (∃ root ∈ pickRandomRiverTiles 20 20 riverDrawsA,
      ∀ p ∈ pickRandomRiverTiles 20 20 riverDrawsA,
        Relation.ReflTransGen
          (stepIn (pickRandomRiverTiles 20 20 riverDrawsA)) root p) :=
  pickRandomRiverTiles_path 20 20 riverDrawsA (by norm_num) (by norm_num)
    (by decide)

/-- Witness for C5 at a concrete run: `mountainDraws` accepts five clusters
on a `30 × 30` grid with water `[(15, 15)]`; the first two clusters'
seeds `(2, 2)` and `(2, 27)` are more than 8 apart, `(2, 2)` is at least
5 from the water cell, and at most 16 peaks are returned. -/
theorem pickRandomBlackTiles_invariants_witness :
    8 < manhattanDist (2, 2) (2, 27) ∧
    5 ≤ manhattanDist (2, 2) (15, 15) ∧
    (pickRandomBlackTiles 30 30 [(15, 15)] [] mountainDraws).length ≤ 16 :=
  ⟨(pickRandomBlackTiles_invariants 30 30 [(15, 15)] [] mountainDraws).1
      ⟨0, by decide⟩ ⟨1, by decide⟩ (by decide) (2, 2) (by decide)
      (2, 27) (by decide),
   (pickRandomBlackTiles_invariants 30 30 [(15, 15)] [] mountainDraws).2.1
      (2, 2) (by decide) (15, 15) (by decide),
   (pickRandomBlackTiles_invariants 30 30 [(15, 15)] []
      mountainDraws).2.2⟩

end Gridium
